import Mathlib

/-!
Verification development for the PDF data-extraction CLI
(`main.py` and the `ceeol-prototype/ceeol_main.py` variant).

Strings are modelled as `List Char`.  Python dictionaries are modelled as
association lists with insertion-order semantics (`pyInsert`, `dictUpdate`,
`dedupItems`).  The response-recovery pipeline of `process_file`
(lines 178-218 of `main.py`) is embedded as `responseParse`, built from:

* `pyStrip`  — Python `str.strip()` (ASCII whitespace subset; Python also
  strips some Unicode space characters, which are not modelled),
* `removeAll` — Python `str.replace(pat, "")` (left-to-right removal of
  non-overlapping occurrences),
* `jsonParse` — Python `json.loads` (strict mode): the full JSON grammar
  plus the NaN/Infinity constants; numbers are kept as their lexemes, and
  `\uXXXX` escapes outside the unicode scalar range are mapped to the
  default character (Python would build surrogate code units there),
* `braceExtract` — the greedy DOTALL scan for a first-brace to last-brace
  block, mirroring the fallback at line 188 of `main.py`.
-/

/-! ## Characters and whitespace -/

/-- JSON whitespace, exactly the characters skipped by `json.loads`. -/
def isJsonWs (c : Char) : Bool :=
  c = ' ' || c = '\t' || c = '\n' || c = '\r'

/-- Whitespace stripped by Python `str.strip()` (ASCII subset: space, tab,
newline, carriage return, vertical tab, form feed). -/
def isPySpace (c : Char) : Bool :=
  c = ' ' || c = '\t' || c = '\n' || c = '\r' || c = '\x0b' || c = '\x0c'

/-- Drop the longest suffix of `l` whose characters satisfy `p`. -/
def dropEndWhile (p : Char → Bool) (l : List Char) : List Char :=
  (l.reverse.dropWhile p).reverse

/-- Python `str.strip()`. -/
def pyStrip (l : List Char) : List Char :=
  dropEndWhile isPySpace (l.dropWhile isPySpace)

/-- Trim JSON whitespace from both ends (used to model the
leading-whitespace skip and trailing `Extra data` check of `json.loads`). -/
def jsonTrim (l : List Char) : List Char :=
  dropEndWhile isJsonWs (l.dropWhile isJsonWs)

/-- Skip JSON whitespace. -/
def skipWs (l : List Char) : List Char :=
  l.dropWhile isJsonWs

/-- Abbreviation: string literal to character list. -/
def toL (s : String) : List Char := s.toList

/-- Boolean check that `p` is a leading segment of `l`
(Python `str.startswith`, used to model substring search in `replace`). -/
def listPre : List Char → List Char → Bool
  | [], _ => true
  | _ :: _, [] => false
  | a :: as, b :: bs => a = b && listPre as bs

/-- Fuel-driven worker for `removeAll`; with `fuel ≥ l.length` it removes
every non-overlapping occurrence of `p` from `l`, scanning left to right,
exactly like Python `l.replace(p, "")` for a non-empty pattern `p`. -/
def removeAllF (p : List Char) : Nat → List Char → List Char
  | _, [] => []
  | 0, l => l
  | fuel + 1, x :: xs =>
    if listPre p (x :: xs) then removeAllF p fuel (xs.drop (p.length - 1))
    else x :: removeAllF p fuel xs

/-- Python `l.replace(p, "")` for a non-empty pattern `p`. -/
def removeAll (p l : List Char) : List Char :=
  removeAllF p l.length l

/-- The literal markdown fence marker removed first at line 179. -/
def fenceJson : List Char := toL "```json"

/-- The plain triple-backtick fence marker, removed second. -/
def fencePlain : List Char := toL "```"

/-- Line 179 of `main.py`:
`response.text.strip().replace("```json", "").replace("```", "")`. -/
def cleanResponse (raw : List Char) : List Char :=
  removeAll fencePlain (removeAll fenceJson (pyStrip raw))

/-! ## JSON values and Python dict semantics -/

mutual

/-- Values produced by `json.loads`.  Numbers (including the NaN/Infinity
constants accepted by Python) are kept as their source lexemes.  Arrays
and objects carry their own list types so that all recursion over values
is structural. -/
inductive JVal where
  | null : JVal
  | bool : Bool → JVal
  | num : List Char → JVal
  | str : List Char → JVal
  | arr : JArr → JVal
  | obj : JObj → JVal

/-- A JSON array. -/
inductive JArr where
  | nil : JArr
  | cons : JVal → JArr → JArr

/-- A JSON object: ordered key/value entries (unique keys by
construction, since `json.loads` builds them through a dict). -/
inductive JObj where
  | nil : JObj
  | cons : List Char → JVal → JObj → JObj

end

deriving instance DecidableEq for JVal, JArr, JObj

instance : Inhabited JVal := ⟨JVal.null⟩

instance : Nonempty JVal := ⟨JVal.null⟩

instance : Inhabited JArr := ⟨JArr.nil⟩

instance : Inhabited JObj := ⟨JObj.nil⟩

/-- A Python dict from string keys to JSON values, as an ordered
association list with (by construction) unique keys. -/
abbrev PyDict := List (List Char × JVal)

/-- A `JObj` as an association list. -/
def jObjToList : JObj → PyDict
  | JObj.nil => []
  | JObj.cons k v tl => (k, v) :: jObjToList tl

/-- An association list as a `JObj`. -/
def toJObj : PyDict → JObj
  | [] => JObj.nil
  | (k, v) :: tl => JObj.cons k v (toJObj tl)

/-- A `JArr` as a list of values. -/
def jArrToList : JArr → List JVal
  | JArr.nil => []
  | JArr.cons v tl => v :: jArrToList tl

/-- A list of values as a `JArr`. -/
def toJArr : List JVal → JArr
  | [] => JArr.nil
  | v :: tl => JArr.cons v (toJArr tl)

/-- First-match lookup, Python `d[k]` / `d.get(k)`.  On the dicts built by
`pyInsert` keys are unique, so first-match agrees with dict lookup. -/
def dictLookup (k : List Char) : PyDict → Option JVal
  | [] => none
  | (k1, v) :: rest => if k1 = k then some v else dictLookup k rest

/-- The keys of a dict, in order. -/
def keysOf (d : PyDict) : List (List Char) := d.map Prod.fst

/-- Python `d[k] = v`: replace in place if the key exists, else append. -/
def pyInsert (d : PyDict) (k : List Char) (v : JVal) : PyDict :=
  if k ∈ keysOf d then d.map (fun kv => if kv.1 = k then (k, v) else kv)
  else d ++ [(k, v)]

/-- Python `d.update(meta)`: assign each pair of `meta` in order. -/
def dictUpdate (d : PyDict) (meta : PyDict) : PyDict :=
  meta.foldl (fun acc kv => pyInsert acc kv.1 kv.2) d

/-- Python `dict(pairs)`: first-occurrence position, last value wins. -/
def dedupItems (l : PyDict) : PyDict :=
  dictUpdate [] l

/-! ## A model of `json.loads` (strict mode) -/

/-- Hexadecimal digit value. -/
def hexVal? (c : Char) : Option Nat :=
  if '0' ≤ c ∧ c ≤ '9' then some (c.toNat - '0'.toNat)
  else if 'a' ≤ c ∧ c ≤ 'f' then some (c.toNat - 'a'.toNat + 10)
  else if 'A' ≤ c ∧ c ≤ 'F' then some (c.toNat - 'A'.toNat + 10)
  else none

/-- JSON string body after the opening quote: strict mode, so unescaped
control characters are rejected; the standard escapes and `\uXXXX` are
decoded.  Returns the decoded text and the input after the closing quote. -/
def parseJStringAux : List Char → List Char → Option (List Char × List Char)
  | [], _ => none
  | c :: rest, acc =>
    if c = '"' then some (acc.reverse, rest)
    else if c = '\\' then
      match rest with
      | [] => none
      | e :: r2 =>
        if e = '"' then parseJStringAux r2 ('"' :: acc)
        else if e = '\\' then parseJStringAux r2 ('\\' :: acc)
        else if e = '/' then parseJStringAux r2 ('/' :: acc)
        else if e = 'b' then parseJStringAux r2 ('\x08' :: acc)
        else if e = 'f' then parseJStringAux r2 ('\x0c' :: acc)
        else if e = 'n' then parseJStringAux r2 ('\n' :: acc)
        else if e = 'r' then parseJStringAux r2 ('\r' :: acc)
        else if e = 't' then parseJStringAux r2 ('\t' :: acc)
        else if e = 'u' then
          match r2 with
          | h1 :: h2 :: h3 :: h4 :: r3 =>
            match hexVal? h1, hexVal? h2, hexVal? h3, hexVal? h4 with
            | some a, some b, some c3, some d =>
              parseJStringAux r3 (Char.ofNat (((a * 16 + b) * 16 + c3) * 16 + d) :: acc)
            | _, _, _, _ => none
          | _ => none
        else none
    else if c.toNat < 0x20 then none
    else parseJStringAux rest (c :: acc)

/-- Optional fraction and exponent of a JSON number; parts that do not fit
the grammar are left unconsumed (exactly like the number regex used by
Python, which simply matches a shorter prefix). -/
def fracExp (r1 : List Char) : List Char × List Char :=
  let fr : List Char × List Char :=
    match r1 with
    | '.' :: r2 =>
      match r2.takeWhile Char.isDigit with
      | [] => ([], r1)
      | ds => ('.' :: ds, r2.dropWhile Char.isDigit)
    | _ => ([], r1)
  let ra := fr.2
  let ex : List Char × List Char :=
    match ra with
    | e :: r3 =>
      if e = 'e' ∨ e = 'E' then
        match r3 with
        | s :: r4 =>
          if s = '+' ∨ s = '-' then
            match r4.takeWhile Char.isDigit with
            | [] => ([], ra)
            | ds => (e :: s :: ds, r4.dropWhile Char.isDigit)
          else
            match r3.takeWhile Char.isDigit with
            | [] => ([], ra)
            | ds => (e :: ds, r3.dropWhile Char.isDigit)
        | [] => ([], ra)
      else ([], ra)
    | [] => ([], ra)
  (fr.1 ++ ex.1, ex.2)

/-- Unsigned part of a JSON number: `0` or a nonzero-led digit run, then
optional fraction and exponent. -/
def parseNumAfterSign : List Char → Option (List Char × List Char)
  | [] => none
  | d :: r =>
    if d = '0' then
      let fe := fracExp r
      some ('0' :: fe.1, fe.2)
    else if d.isDigit then
      let ip := d :: r.takeWhile Char.isDigit
      let r1 := r.dropWhile Char.isDigit
      let fe := fracExp r1
      some (ip ++ fe.1, fe.2)
    else none

/-- A JSON number lexeme `-?(0|[1-9][0-9]*)(\.[0-9]+)?([eE][+-]?[0-9]+)?`. -/
def parseNumber (l : List Char) : Option (List Char × List Char) :=
  match l with
  | '-' :: r => (parseNumAfterSign r).map (fun p => ('-' :: p.1, p.2))
  | _ => parseNumAfterSign l

mutual

/-- One JSON value, fuel-driven.  Mirrors the Python scanner: dispatch on
the first character, with whitespace skipped inside containers. -/
def parseValue : Nat → List Char → Option (JVal × List Char)
  | 0, _ => none
  | fuel + 1, l =>
    match l with
    | [] => none
    | c :: rest =>
      if c = '{' then
        match skipWs rest with
        | '}' :: r => some (JVal.obj JObj.nil, r)
        | l1 => (parseMembers fuel l1).map
            (fun p => (JVal.obj (toJObj (dedupItems p.1)), p.2))
      else if c = '[' then
        match skipWs rest with
        | ']' :: r => some (JVal.arr JArr.nil, r)
        | l1 => (parseElems fuel l1).map (fun p => (JVal.arr (toJArr p.1), p.2))
      else if c = '"' then
        (parseJStringAux rest []).map (fun p => (JVal.str p.1, p.2))
      else if listPre (toL "true") l then some (JVal.bool true, l.drop 4)
      else if listPre (toL "false") l then some (JVal.bool false, l.drop 5)
      else if listPre (toL "null") l then some (JVal.null, l.drop 4)
      else if listPre (toL "NaN") l then some (JVal.num (toL "NaN"), l.drop 3)
      else if listPre (toL "Infinity") l then some (JVal.num (toL "Infinity"), l.drop 8)
      else if listPre (toL "-Infinity") l then some (JVal.num (toL "-Infinity"), l.drop 9)
      else (parseNumber l).map (fun p => (JVal.num p.1, p.2))

/-- Array elements after `[` (first element not yet consumed, input not
starting with `]`). -/
def parseElems : Nat → List Char → Option (List JVal × List Char)
  | 0, _ => none
  | fuel + 1, l =>
    match parseValue fuel l with
    | none => none
    | some (v, r) =>
      match skipWs r with
      | ',' :: r2 => (parseElems fuel (skipWs r2)).map (fun p => (v :: p.1, p.2))
      | ']' :: r2 => some ([v], r2)
      | _ => none

/-- Object members after `{` (input not starting with `}`): a quoted key,
a colon, a value, then a comma or the closing brace. -/
def parseMembers : Nat → List Char → Option (List (List Char × JVal) × List Char)
  | 0, _ => none
  | fuel + 1, l =>
    match l with
    | '"' :: rest =>
      match parseJStringAux rest [] with
      | none => none
      | some (k, r) =>
        match skipWs r with
        | ':' :: r2 =>
          match parseValue fuel (skipWs r2) with
          | none => none
          | some (v, r3) =>
            match skipWs r3 with
            | ',' :: r4 => (parseMembers fuel (skipWs r4)).map (fun p => ((k, v) :: p.1, p.2))
            | '}' :: r4 => some ([(k, v)], r4)
            | _ => none
        | _ => none
    | _ => none

end

/-- Python `json.loads`: skip leading whitespace, parse one value, and
require only whitespace to remain (`Extra data` otherwise).  Modelled by
trimming JSON whitespace from both ends first and then requiring the value
to consume the whole remainder; the fuel `2 * length + 4` dominates the
recursion depth, since every nesting level and every element consumes at
least one input character. -/
def jsonParse (t : List Char) : Option JVal :=
  let u := jsonTrim t
  match parseValue (2 * u.length + 4) u with
  | some (v, []) => some v
  | _ => none

/-- The fallback of lines 186-199 of `main.py`:
`re.search(r'\{.*\}', text, re.DOTALL)`, i.e. the block from the first
opening brace to the last closing brace (greedy, spanning newlines). -/
def braceExtract (t : List Char) : Option (List Char) :=
  let t1 := t.dropWhile (fun c => ¬(c = '{'))
  if t1 = [] then none
  else
    let u := t1.reverse.dropWhile (fun c => ¬(c = '}'))
    if u = [] then none else some u.reverse

/-- Decode stage of the response parser: direct `json.loads` of the cleaned
text, else `json.loads` of the brace-delimited block (lines 182-199). -/
def parseStage (raw : List Char) : Option JVal :=
  match jsonParse (cleanResponse raw) with
  | some v => some v
  | none =>
    match braceExtract (cleanResponse raw) with
    | some sub => jsonParse sub
    | none => none

/-- The list-leniency rule of lines 201-208: a list is replaced by its
first element, an empty list by an empty dict. -/
def listLenient : JVal → JVal
  | JVal.arr JArr.nil => JVal.obj JObj.nil
  | JVal.arr (JArr.cons x _) => x
  | v => v

/-- The whole response-recovery pipeline of `process_file`
(lines 178-213): clean, decode with fallback, apply list leniency, and
require the final value to be a dict. -/
def responseParse (raw : List Char) : Option PyDict :=
  match parseStage raw with
  | none => none
  | some v =>
    match listLenient v with
    | JVal.obj m => some (jObjToList m)
    | _ => none

/-- A raw model response wrapped in a markdown code fence. -/
def fenceWrap (s : List Char) : List Char :=
  toL "```json\n" ++ s ++ toL "\n```"

/-! ## `process_file` (main.py, lines 98-226)

External effects are oracles passed as arguments: `upload` is the staged
file name on success (`genai.upload_file`), `genFile`/`genText` the raw
model response text (`model.generate_content`), `deleteOk` whether
`genai.delete_file` succeeds, `pdfDoc` the page count and concatenated
page text of a successfully opened PDF (`pymupdf.open`).  Raising inside
the try blocks is modelled by `none`/`false`; every such failure makes
`process_file` return `None` in the source. -/

/-- `posixpath.basename`: everything after the last slash. -/
def basename (p : List Char) : List Char :=
  (p.reverse.takeWhile (fun c => ¬(c = '/'))).reverse

/-- The fixed upload limit of lines 19-20 of `main.py`. -/
def GEMINI_MAX_FILE_SIZE_MB : Nat := 50

/-- `GEMINI_MAX_FILE_SIZE_MB * 1024 * 1024`. -/
def GEMINI_MAX_FILE_SIZE_BYTES : Nat := GEMINI_MAX_FILE_SIZE_MB * 1024 * 1024

/-- `process_file` of `main.py`.  In file mode (`textMode = false`): size
check, upload, generate, delete — all inside one try/except, so any
failure (including the delete) returns `none`.  In text mode: open the
PDF, reject empty extracted text, generate.  Both modes then run the
response pipeline and overwrite the result with the known metadata. -/
def process_file (file_path : List Char) (fileSize : Nat) (textMode : Bool)
    (upload : Option (List Char)) (genFile : Option (List Char)) (deleteOk : Bool)
    (pdfDoc : Option (Nat × List Char)) (genText : Option (List Char)) :
    Option PyDict :=
  let filename := basename file_path
  if textMode = false then
    if fileSize > GEMINI_MAX_FILE_SIZE_BYTES then none
    else
      match upload with
      | none => none
      | some _uf =>
        match genFile with
        | none => none
        | some resp =>
          if deleteOk = false then none
          else
            match responseParse resp with
            | none => none
            | some fields =>
              some (dictUpdate fields
                [(toL "filename", JVal.str filename),
                 (toL "processing_mode", JVal.str (toL "file"))])
  else
    match pdfDoc with
    | none => none
    | some pc_text =>
      if pyStrip pc_text.2 = [] then none
      else
        match genText with
        | none => none
        | some resp =>
          match responseParse resp with
          | none => none
          | some fields =>
            some (dictUpdate fields
              [(toL "filename", JVal.str filename),
               (toL "processing_mode", JVal.str (toL "text"))])

/-- `process_pdf` of `ceeol_main.py` (lines 74-122): text extraction,
empty-text skip, one `json.loads` of the cleaned response (no brace
fallback, no list leniency — a non-dict value makes the subsequent item
assignments raise, caught by the blanket except, hence `none`), then the
two assignments `extracted_data['filename']` and
`extracted_data['page_count']`. -/
def ceeol_process_pdf (file_path : List Char) (pdfDoc : Option (Nat × List Char))
    (gen : Option (List Char)) : Option PyDict :=
  let filename := basename file_path
  match pdfDoc with
  | none => none
  | some pc_text =>
    if pyStrip pc_text.2 = [] then none
    else
      match gen with
      | none => none
      | some resp =>
        match jsonParse (cleanResponse resp) with
        | some (JVal.obj m) =>
          some (dictUpdate (jObjToList m)
            [(toL "filename", JVal.str filename),
             (toL "page_count", JVal.num (Nat.repr pc_text.1).toList)])
        | _ => none

/-! ## CSV flattening and serialization (`main.py`, lines 228-274) -/

/-- Join string pieces with a separator (Python `sep.join`). -/
def joinSep (sep : List Char) : List (List Char) → List Char
  | [] => []
  | [x] => x
  | x :: xs => x ++ sep ++ joinSep sep xs

mutual

/-- Python `str()` on a parsed JSON value.  The flag marks values rendered
inside a container, which Python renders with `repr` (strings quoted;
quote selection for strings containing a quote is not modelled).  Scalars
match Python exactly apart from numbers, which keep their lexeme. -/
def pyStrV : Bool → JVal → List Char
  | _, JVal.null => toL "None"
  | _, JVal.bool true => toL "True"
  | _, JVal.bool false => toL "False"
  | _, JVal.num l => l
  | false, JVal.str s => s
  | true, JVal.str s => '\'' :: s ++ ['\'']
  | _, JVal.arr xs => '[' :: joinSep (toL ", ") (pyStrArr xs) ++ [']']
  | _, JVal.obj m => '\x7b' :: joinSep (toL ", ") (pyStrObj m) ++ ['\x7d']

/-- Rendered elements of an array. -/
def pyStrArr : JArr → List (List Char)
  | JArr.nil => []
  | JArr.cons v tl => pyStrV true v :: pyStrArr tl

/-- Rendered entries of an object. -/
def pyStrObj : JObj → List (List Char)
  | JObj.nil => []
  | JObj.cons k v tl => ('\'' :: k ++ '\'' :: ':' :: ' ' :: pyStrV true v) :: pyStrObj tl

end

/-- Python `str(v)`. -/
def pyStr (v : JVal) : List Char :=
  pyStrV false v

/-- A value that is neither a mapping nor a sequence (the values that
`flatten_json_to_csv` passes through unchanged). -/
def isScalar : JVal → Bool
  | JVal.obj _ => false
  | JVal.arr _ => false
  | _ => true

/-- The item sequence accumulated by `flatten_json_to_csv` over the
entries of a dict: dict values recurse with the `_`-joined compound key
(the recursive call returns a dict, so its items are deduplicated), list
values are joined with `"; "` after `str()`, other values pass through. -/
def flattenObjItems : JObj → List Char → PyDict
  | JObj.nil, _ => []
  | JObj.cons k v tl, parent =>
    let nk := if parent = [] then k else parent ++ '_' :: k
    (match v with
     | JVal.obj m => dedupItems (flattenObjItems m nk)
     | JVal.arr xs => [(nk, JVal.str (joinSep (toL "; ") ((jArrToList xs).map pyStr)))]
     | v1 => [(nk, v1)]) ++ flattenObjItems tl parent

/-- `flatten_json_to_csv(data, parent_key, sep='_')` of `main.py`
(lines 228-240); the final `dict(items)` collapse is `dedupItems`. -/
def flatten_json_to_csv (d : PyDict) (parent : List Char) : PyDict :=
  dedupItems (flattenObjItems (toJObj d) parent)

/-- Lexicographic order on strings by code point, the order Python uses
to compare `str` values in `sorted`. -/
def lexLe : List Char → List Char → Bool
  | [], _ => true
  | _ :: _, [] => false
  | a :: as, b :: bs => if a < b then true else if b < a then false else lexLe as bs

/-- Ordered insertion for `sortKeys`. -/
def sInsert (x : List Char) : List (List Char) → List (List Char)
  | [] => [x]
  | y :: ys => if lexLe x y then x :: y :: ys else y :: sInsert x ys

/-- Sorting by `lexLe`; on duplicate-free input this is the unique sorted
arrangement, hence it agrees with Python `sorted`. -/
def sortKeys : List (List Char) → List (List Char)
  | [] => []
  | x :: xs => sInsert x (sortKeys xs)

/-- `save_to_csv` of `main.py` (lines 242-274): flatten every result,
collect the set-union of the flattened keys (a Python `set`, made
canonical by `sorted`), and emit one row per result with missing columns
filled by the empty string (`item.get(col, '')`).  Returns the header and
the cell rows; `none` models the early return that writes nothing. -/
def save_to_csv (data : List PyDict) :
    Option (List (List Char) × List (List JVal)) :=
  if data = [] then none
  else
    let flattened := data.map (fun d => flatten_json_to_csv d [])
    if flattened = [] then none
    else
      let cols := sortKeys (flattened.flatMap keysOf).dedup
      some (cols, flattened.map (fun it =>
        cols.map (fun c => (dictLookup c it).getD (JVal.str []))))

/-! ## Input enumeration and the main flow (`main.py`, lines 276-407) -/

/-- `f.lower().endswith(".pdf")`. -/
def isPdfName (f : List Char) : Bool :=
  listPre (toL ".pdf").reverse (f.map Char.toLower).reverse

/-- `posixpath.join(a, b)` for a single component. -/
def pathJoin (a b : List Char) : List Char :=
  if b.head? = some '/' then b
  else if a = [] then b
  else if a.getLast? = some '/' then a ++ b
  else a ++ '/' :: b

/-- Lines 354-362 of `main.py`.  Recursive mode walks the tree (`walk` is
the list of visited directories with the file names they contain) and
joins each name with its containing directory; non-recursive mode filters
the bare names returned by `os.listdir(input_directory)` and uses them
as-is, without joining them with `inputDirectory`. -/
def collectPdfFiles (recursive : Bool) (inputDirectory : List Char)
    (walk : List (List Char × List (List Char))) (listing : List (List Char)) :
    List (List Char) :=
  if recursive then
    walk.flatMap (fun rf => (rf.2.filter isPdfName).map (fun f => pathJoin rf.1 f))
  else listing.filter isPdfName

/-- How a relative path handed to `open`/`pymupdf.open` is resolved by the
operating system: against the process working directory. -/
def resolveFrom (cwd p : List Char) : List Char :=
  if p.head? = some '/' then p else pathJoin cwd p

/-- Python falsiness of a parsed JSON value (`not x`). -/
def pyFalsy : JVal → Bool
  | JVal.null => true
  | JVal.bool b => !b
  | JVal.str s => s = ([] : List Char)
  | JVal.arr xs => xs = JArr.nil
  | JVal.obj m => m = JObj.nil
  | JVal.num l => (l.filter Char.isDigit).all (fun c => c = '0')

/-- The schema gate of lines 350-352:
`if not extraction_schema.get('fields')`. -/
def schemaFieldsOk (sch : PyDict) : Bool :=
  match dictLookup (toL "fields") sch with
  | none => false
  | some v => !pyFalsy v

/-- The orchestration of `main()` in the order of the source: API
configuration, input-directory check, schema load (`none` models a load
failure), the `if not extraction_schema` falsiness check, the `fields`
gate, file enumeration, then the per-document loop (`runDoc` is the
oracle for one `process_file` call); failed documents are dropped. -/
def mainRun (apiOk : Bool) (dirOk : Bool) (schema : Option PyDict)
    (recursive : Bool) (inputDirectory : List Char)
    (walk : List (List Char × List (List Char))) (listing : List (List Char))
    (runDoc : List Char → Option PyDict) : Option (List PyDict) :=
  if apiOk = false then none
  else if dirOk = false then none
  else
    match schema with
    | none => none
    | some sch =>
      if sch = [] then none
      else if schemaFieldsOk sch = false then none
      else
        let pdfs := collectPdfFiles recursive inputDirectory walk listing
        if pdfs = [] then none
        else
          let results := pdfs.filterMap runDoc
          if results = [] then none else some results

/-- A constant per-document oracle, used to exhibit runs concretely. -/
def sampleRunDoc : List Char → Option PyDict := fun _ => some []

/-! ## Lemmas: Python dict semantics -/

/-- Key membership in a cons dict. -/
theorem mem_keysOf_cons {k k1 : List Char} {v1 : JVal} {tl : PyDict} :
    k ∈ keysOf ((k1, v1) :: tl) ↔ k = k1 ∨ k ∈ keysOf tl := by
  constructor
  · intro h
    rcases List.mem_cons.mp h with h1 | h1
    · exact Or.inl h1
    · exact Or.inr h1
  · intro h
    rcases h with h1 | h1
    · exact List.mem_cons.mpr (Or.inl h1)
    · exact List.mem_cons.mpr (Or.inr h1)

/-- Lookup after replacing a present key. -/
theorem dictLookup_map_replace (d : PyDict) (k : List Char) (v : JVal)
    (h : k ∈ keysOf d) :
    dictLookup k (d.map (fun kv => if kv.1 = k then (k, v) else kv)) = some v := by
  induction d with
  | nil => simp [keysOf] at h
  | cons hd tl ih =>
    obtain ⟨k1, v1⟩ := hd
    by_cases hk : k1 = k
    · subst hk
      rw [List.map_cons]
      show dictLookup k1 ((if k1 = k1 then (k1, v) else (k1, v1)) :: _) = some v
      rw [if_pos rfl]
      simp [dictLookup]
    · have h1 : k ∈ keysOf tl := by
        rcases mem_keysOf_cons.mp h with h2 | h2
        · exact absurd h2.symm hk
        · exact h2
      rw [List.map_cons]
      show dictLookup k ((if k1 = k then (k, v) else (k1, v1)) :: _) = some v
      rw [if_neg hk]
      show (if k1 = k then some v1 else _) = some v
      rw [if_neg hk]
      exact ih h1

/-- Lookup of the key just assigned. -/
theorem dictLookup_pyInsert_self (d : PyDict) (k : List Char) (v : JVal) :
    dictLookup k (pyInsert d k v) = some v := by
  unfold pyInsert
  by_cases h : k ∈ keysOf d
  · simpa [h] using dictLookup_map_replace d k v h
  · simp only [h, if_false]
    induction d with
    | nil => simp [dictLookup]
    | cons hd tl ih =>
      obtain ⟨k1, v1⟩ := hd
      have hk : ¬(k1 = k) := fun he => h (mem_keysOf_cons.mpr (Or.inl he.symm))
      have htl : k ∉ keysOf tl := fun hm => h (mem_keysOf_cons.mpr (Or.inr hm))
      show (if k1 = k then some v1 else dictLookup k (tl ++ [(k, v)])) = some v
      rw [if_neg hk]
      exact ih htl

/-- Assigning one key leaves lookups of other keys unchanged. -/
theorem dictLookup_pyInsert_ne (d : PyDict) (k : List Char) (v : JVal)
    (k2 : List Char) (h : k2 ≠ k) :
    dictLookup k2 (pyInsert d k v) = dictLookup k2 d := by
  unfold pyInsert
  by_cases hm : k ∈ keysOf d
  · simp only [hm, if_true]
    clear hm
    induction d with
    | nil => simp
    | cons hd tl ih =>
      obtain ⟨k1, v1⟩ := hd
      rw [List.map_cons]
      by_cases hk : k1 = k
      · subst hk
        have h1 : ¬(k1 = k2) := fun he => h (he ▸ rfl)
        show dictLookup k2 ((if k1 = k1 then (k1, v) else (k1, v1)) :: _) = _
        rw [if_pos rfl]
        show (if k1 = k2 then some v else _) = if k1 = k2 then some v1 else _
        rw [if_neg h1, if_neg h1]
        exact ih
      · show dictLookup k2 ((if k1 = k then (k, v) else (k1, v1)) :: _) = _
        rw [if_neg hk]
        show (if k1 = k2 then some v1 else _) = if k1 = k2 then some v1 else _
        by_cases h2 : k1 = k2
        · rw [if_pos h2, if_pos h2]
        · rw [if_neg h2, if_neg h2]
          exact ih
  · simp only [hm, if_false]
    have hne : ¬(k = k2) := fun he => h he.symm
    induction d with
    | nil =>
      show (if k = k2 then some v else none) = none
      rw [if_neg hne]
    | cons hd tl ih =>
      obtain ⟨k1, v1⟩ := hd
      have htl : k ∉ keysOf tl := fun hmm => hm (mem_keysOf_cons.mpr (Or.inr hmm))
      show (if k1 = k2 then some v1 else dictLookup k2 (tl ++ [(k, v)])) =
        if k1 = k2 then some v1 else dictLookup k2 tl
      by_cases h2 : k1 = k2
      · rw [if_pos h2, if_pos h2]
      · rw [if_neg h2, if_neg h2]
        exact ih htl

/-- `update` leaves keys outside the update unchanged. -/
theorem dictLookup_dictUpdate_notMem (meta : PyDict) (d : PyDict) (k : List Char)
    (h : k ∉ keysOf meta) :
    dictLookup k (dictUpdate d meta) = dictLookup k d := by
  induction meta generalizing d with
  | nil => rfl
  | cons hd tl ih =>
    obtain ⟨k1, v1⟩ := hd
    have hk : k ≠ k1 := fun he => h (mem_keysOf_cons.mpr (Or.inl he))
    have htl : k ∉ keysOf tl := fun hm => h (mem_keysOf_cons.mpr (Or.inr hm))
    calc dictLookup k (dictUpdate d ((k1, v1) :: tl))
        = dictLookup k (dictUpdate (pyInsert d k1 v1) tl) := rfl
      _ = dictLookup k (pyInsert d k1 v1) := ih _ htl
      _ = dictLookup k d := dictLookup_pyInsert_ne d k1 v1 k hk

/-- For duplicate-free metadata, `update` makes metadata authoritative:
looking up any metadata key in the updated dict returns the metadata
value. -/
theorem dictLookup_dictUpdate_mem (meta : PyDict) (d : PyDict) (k : List Char)
    (hn : (keysOf meta).Nodup) (h : k ∈ keysOf meta) :
    dictLookup k (dictUpdate d meta) = dictLookup k meta := by
  induction meta generalizing d with
  | nil => simp [keysOf] at h
  | cons hd tl ih =>
    obtain ⟨k1, v1⟩ := hd
    have hn1 : (k1 :: keysOf tl).Nodup := hn
    have hcons := List.nodup_cons.mp hn1
    by_cases hk : k = k1
    · have hkn : k ∉ keysOf tl := fun hm => hcons.1 (hk ▸ hm)
      have hlast : dictLookup k ((k1, v1) :: tl) = some v1 := by
        show (if k1 = k then some v1 else _) = some v1
        rw [if_pos hk.symm]
      calc dictLookup k (dictUpdate d ((k1, v1) :: tl))
          = dictLookup k (dictUpdate (pyInsert d k1 v1) tl) := rfl
        _ = dictLookup k (pyInsert d k1 v1) := dictLookup_dictUpdate_notMem tl _ k hkn
        _ = some v1 := by rw [hk]; exact dictLookup_pyInsert_self d k1 v1
        _ = dictLookup k ((k1, v1) :: tl) := hlast.symm
    · have htl : k ∈ keysOf tl := by
        rcases mem_keysOf_cons.mp h with h1 | h1
        · exact absurd h1 hk
        · exact h1
      have hne : ¬(k1 = k) := fun he => hk he.symm
      have hlast : dictLookup k ((k1, v1) :: tl) = dictLookup k tl := by
        show (if k1 = k then some v1 else _) = _
        rw [if_neg hne]
      calc dictLookup k (dictUpdate d ((k1, v1) :: tl))
          = dictLookup k (dictUpdate (pyInsert d k1 v1) tl) := rfl
        _ = dictLookup k tl := ih _ hcons.2 htl
        _ = dictLookup k ((k1, v1) :: tl) := hlast.symm

/-- Every pair of an assigned dict comes from the base dict or is the
assigned pair. -/
theorem mem_of_mem_pyInsert (d : PyDict) (k : List Char) (v : JVal)
    (kv : List Char × JVal) (h : kv ∈ pyInsert d k v) :
    kv ∈ d ∨ kv = (k, v) := by
  unfold pyInsert at h
  by_cases hm : k ∈ keysOf d
  · simp only [hm, if_true] at h
    rcases List.mem_map.mp h with ⟨kv0, hkv0, heq⟩
    by_cases hk : kv0.1 = k
    · right; rw [if_pos hk] at heq; exact heq.symm
    · left; rw [if_neg hk] at heq; exact heq ▸ hkv0
  · simp only [hm, if_false, List.mem_append, List.mem_singleton] at h
    exact h

/-- Every pair of an updated dict comes from the base dict or the update. -/
theorem mem_of_mem_dictUpdate (meta : PyDict) (d : PyDict)
    (kv : List Char × JVal) (h : kv ∈ dictUpdate d meta) :
    kv ∈ d ∨ kv ∈ meta := by
  induction meta generalizing d with
  | nil => exact Or.inl h
  | cons hd tl ih =>
    rcases ih (pyInsert d hd.1 hd.2) h with h1 | h1
    · rcases mem_of_mem_pyInsert d hd.1 hd.2 kv h1 with h2 | h2
      · exact Or.inl h2
      · right; rw [h2]; exact List.mem_cons.mpr (Or.inl rfl)
    · exact Or.inr (List.mem_cons_of_mem _ h1)

/-- Every pair of `dict(pairs)` is one of the pairs. -/
theorem mem_of_mem_dedupItems (l : PyDict) (kv : List Char × JVal)
    (h : kv ∈ dedupItems l) : kv ∈ l := by
  rcases mem_of_mem_dictUpdate l [] kv h with h1 | h1
  · cases h1
  · exact h1

/-- Assigning a present key does not change the key sequence. -/
theorem keysOf_pyInsert_mem (d : PyDict) (k : List Char) (v : JVal)
    (h : k ∈ keysOf d) : keysOf (pyInsert d k v) = keysOf d := by
  rw [pyInsert, if_pos h]
  show (d.map _).map Prod.fst = d.map Prod.fst
  rw [List.map_map]
  refine List.map_congr_left (fun kv _ => ?_)
  by_cases hk : kv.1 = k
  · show Prod.fst (if kv.1 = k then (k, v) else kv) = kv.1
    rw [if_pos hk, hk]
  · show Prod.fst (if kv.1 = k then (k, v) else kv) = kv.1
    rw [if_neg hk]

/-- Assigning a fresh key appends it to the key sequence. -/
theorem keysOf_pyInsert_notMem (d : PyDict) (k : List Char) (v : JVal)
    (h : k ∉ keysOf d) : keysOf (pyInsert d k v) = keysOf d ++ [k] := by
  rw [pyInsert, if_neg h]
  simp [keysOf]

/-- Assignment preserves duplicate-freeness of the keys. -/
theorem nodup_keysOf_pyInsert (d : PyDict) (k : List Char) (v : JVal)
    (h : (keysOf d).Nodup) : (keysOf (pyInsert d k v)).Nodup := by
  by_cases hm : k ∈ keysOf d
  · rw [keysOf_pyInsert_mem d k v hm]; exact h
  · rw [keysOf_pyInsert_notMem d k v hm]
    simp [List.nodup_append, h, hm]

/-- Update preserves duplicate-freeness of the keys. -/
theorem nodup_keysOf_dictUpdate (meta : PyDict) (d : PyDict)
    (h : (keysOf d).Nodup) : (keysOf (dictUpdate d meta)).Nodup := by
  induction meta generalizing d with
  | nil => exact h
  | cons hd tl ih => exact ih _ (nodup_keysOf_pyInsert d hd.1 hd.2 h)

/-- `dict(pairs)` has duplicate-free keys. -/
theorem nodup_keysOf_dedupItems (l : PyDict) : (keysOf (dedupItems l)).Nodup :=
  nodup_keysOf_dictUpdate l [] List.nodup_nil

/-- Updating with pairs whose keys are fresh and duplicate-free is plain
concatenation. -/
theorem dictUpdate_append_nodup (l : PyDict) (d : PyDict)
    (h : (keysOf (d ++ l)).Nodup) : dictUpdate d l = d ++ l := by
  induction l generalizing d with
  | nil => simp [dictUpdate]
  | cons hd tl ih =>
    obtain ⟨k1, v1⟩ := hd
    have hkeys : keysOf (d ++ (k1, v1) :: tl) = keysOf d ++ k1 :: keysOf tl := by
      simp [keysOf]
    have hnotMem : k1 ∉ keysOf d := by
      rw [hkeys] at h
      intro hm
      exact (List.disjoint_of_nodup_append h) hm (List.mem_cons.mpr (Or.inl rfl))
    have hins : pyInsert d k1 v1 = d ++ [(k1, v1)] := by
      rw [pyInsert, if_neg hnotMem]
    have hre : (d ++ [(k1, v1)]) ++ tl = d ++ (k1, v1) :: tl := by simp
    calc dictUpdate d ((k1, v1) :: tl)
        = dictUpdate (pyInsert d k1 v1) tl := rfl
      _ = dictUpdate (d ++ [(k1, v1)]) tl := by rw [hins]
      _ = (d ++ [(k1, v1)]) ++ tl := ih _ (by rw [hre]; exact h)
      _ = d ++ (k1, v1) :: tl := hre

/-- `dict(pairs)` of a duplicate-free association list is the identity. -/
theorem dedupItems_of_nodup (l : PyDict) (h : (keysOf l).Nodup) :
    dedupItems l = l := by
  simpa using dictUpdate_append_nodup l [] (by simpa [keysOf] using h)

/-- `dict(pairs)` is idempotent. -/
theorem dedupItems_idem (l : PyDict) : dedupItems (dedupItems l) = dedupItems l :=
  dedupItems_of_nodup _ (nodup_keysOf_dedupItems l)

/-! ## Lemmas: `replace` (fence removal) -/

/-- The fuel of `removeAllF` is irrelevant once it covers the input. -/
theorem removeAllF_congr (p : List Char) :
    ∀ (n m : Nat) (l : List Char), l.length ≤ n → l.length ≤ m →
      removeAllF p n l = removeAllF p m l := by
  intro n
  induction n with
  | zero =>
    intro m l h1 _
    cases l with
    | nil => cases m <;> rfl
    | cons x xs => simp at h1
  | succ n1 ih =>
    intro m l h1 h2
    cases l with
    | nil => cases m <;> rfl
    | cons x xs =>
      cases m with
      | zero => simp at h2
      | succ m1 =>
        show (if listPre p (x :: xs) then removeAllF p n1 (xs.drop (p.length - 1))
              else x :: removeAllF p n1 xs) =
          (if listPre p (x :: xs) then removeAllF p m1 (xs.drop (p.length - 1))
           else x :: removeAllF p m1 xs)
        have hlen : (xs.drop (p.length - 1)).length ≤ xs.length := by
          rw [List.length_drop]; omega
        have hxs : xs.length ≤ n1 := by simpa using h1
        have hxs2 : xs.length ≤ m1 := by simpa using h2
        by_cases hp : listPre p (x :: xs)
        · rw [if_pos hp, if_pos hp]
          exact ih m1 _ (le_trans hlen hxs) (le_trans hlen hxs2)
        · rw [if_neg hp, if_neg hp, ih m1 xs hxs hxs2]

/-- Unfolding equation of `removeAll` on a cons cell. -/
theorem removeAll_cons (p : List Char) (x : Char) (xs : List Char) :
    removeAll p (x :: xs) =
      if listPre p (x :: xs) then removeAll p (xs.drop (p.length - 1))
      else x :: removeAll p xs := by
  show removeAllF p (xs.length + 1) (x :: xs) = _
  show (if listPre p (x :: xs) then removeAllF p xs.length (xs.drop (p.length - 1))
        else x :: removeAllF p xs.length xs) = _
  have hlen : (xs.drop (p.length - 1)).length ≤ xs.length := by
    rw [List.length_drop]; omega
  by_cases hp : listPre p (x :: xs)
  · rw [if_pos hp, if_pos hp]
    exact removeAllF_congr p xs.length _ _ hlen le_rfl
  · rw [if_neg hp, if_neg hp]
    rfl

/-- A true leading-segment check survives extension on the right. -/
theorem listPre_append_of (p l t : List Char) (h : listPre p l = true) :
    listPre p (l ++ t) = true := by
  induction p generalizing l with
  | nil => rfl
  | cons a as ih =>
    cases l with
    | nil => cases h
    | cons b bs =>
      have hab := (Bool.and_eq_true _ _).mp h
      show (a = b && listPre as (bs ++ t)) = true
      rw [ih bs hab.2]
      simpa using hab.1

/-- A true leading-segment check needs at least as much input. -/
theorem listPre_length (p l : List Char) (h : listPre p l = true) :
    p.length ≤ l.length := by
  induction p generalizing l with
  | nil => simp
  | cons a as ih =>
    cases l with
    | nil => cases h
    | cons b bs =>
      have hab := (Bool.and_eq_true _ _).mp h
      have := ih bs hab.2
      simpa using this

/-- On input at least as long as the pattern, the leading-segment check
ignores anything appended. -/
theorem listPre_big (p s t : List Char) (h : p.length ≤ s.length) :
    listPre p (s ++ t) = listPre p s := by
  induction p generalizing s with
  | nil => rfl
  | cons a as ih =>
    cases s with
    | nil => simp at h
    | cons b bs =>
      show (a = b && listPre as (bs ++ t)) = (a = b && listPre as bs)
      rw [ih bs (by simpa using h)]

/-- A true leading-segment check pins down the first characters. -/
theorem listPre_getElem? (p l : List Char) (h : listPre p l = true) :
    ∀ i, i < p.length → l[i]? = p[i]? := by
  induction p generalizing l with
  | nil => intro i hi; simp at hi
  | cons a as ih =>
    cases l with
    | nil => cases h
    | cons b bs =>
      have hab := (Bool.and_eq_true _ _).mp h
      intro i hi
      cases i with
      | zero =>
        have : a = b := by simpa using hab.1
        simp [this]
      | succ j =>
        have hj : j < as.length := by simpa using hi
        simpa using ih bs hab.2 j hj

/-- The pattern is a leading segment of itself plus anything. -/
theorem listPre_self_append (p rest : List Char) :
    listPre p (p ++ rest) = true := by
  induction p with
  | nil => rfl
  | cons a as ih =>
    show (a = a && listPre as (as ++ rest)) = true
    simp [ih]

/-- Dropping exactly the head list of an append. -/
theorem drop_append_le {α : Type} (n : Nat) (u v : List α) (h : n ≤ u.length) :
    (u ++ v).drop n = u.drop n ++ v := by
  induction u generalizing n with
  | nil =>
    have : n = 0 := by simpa using h
    simp [this]
  | cons x xs ih =>
    cases n with
    | zero => simp
    | succ m =>
      show (xs ++ v).drop m = xs.drop m ++ v
      exact ih m (by simpa using h)

/-- `replace` distributes over an append when no occurrence of the
pattern can start inside the head and reach into the tail. -/
theorem removeAll_append (p t : List Char)
    (H : ∀ s2 : List Char, listPre p (s2 ++ t) = true → listPre p s2 = true) :
    ∀ (n : Nat) (s : List Char), s.length ≤ n →
      removeAll p (s ++ t) = removeAll p s ++ removeAll p t := by
  intro n
  induction n with
  | zero =>
    intro s hs
    have : s = [] := List.length_eq_zero.mp (Nat.le_zero.mp hs)
    rw [this]
    rfl
  | succ n1 ih =>
    intro s hs
    cases s with
    | nil => rfl
    | cons x xs =>
      rw [List.cons_append, removeAll_cons, removeAll_cons]
      by_cases hp : listPre p (x :: (xs ++ t))
      · have hps : listPre p (x :: xs) = true := H (x :: xs) hp
        rw [if_pos hp, if_pos hps]
        have hplen : p.length ≤ xs.length + 1 := by simpa using listPre_length p _ hps
        have hdrop : (xs ++ t).drop (p.length - 1) = xs.drop (p.length - 1) ++ t :=
          drop_append_le _ xs t (by omega)
        rw [hdrop]
        refine ih _ ?_
        rw [List.length_drop]
        have : xs.length ≤ n1 := by simpa using hs
        omega
      · have hps : listPre p (x :: xs) = false := by
          by_contra hcon
          have : listPre p (x :: xs) = true := by
            cases hb : listPre p (x :: xs)
            · exact absurd hb hcon
            · rfl
          exact hp (by simpa using listPre_append_of p (x :: xs) t this)
        rw [if_neg hp, if_neg (by simp [hps])]
        have : xs.length ≤ n1 := by simpa using hs
        rw [List.cons_append, ih xs this]

/-- `replace` keeps a head character that cannot start an occurrence. -/
theorem removeAll_cons_ne (p : List Char) (x : Char) (xs : List Char)
    (h : listPre p (x :: xs) = false) :
    removeAll p (x :: xs) = x :: removeAll p xs := by
  rw [removeAll_cons, if_neg (by simp [h])]

/-- `replace` removes the pattern standing at the front. -/
theorem removeAll_pat_self (a : Char) (p1 rest : List Char) :
    removeAll (a :: p1) ((a :: p1) ++ rest) = removeAll (a :: p1) rest := by
  rw [List.cons_append, removeAll_cons,
    if_pos (by simpa using listPre_self_append (a :: p1) rest)]
  congr 1
  show (p1 ++ rest).drop p1.length = rest
  rw [drop_append_le p1.length p1 rest le_rfl, List.drop_length]
  rfl

/-! ## Lemmas: the fenced response and the cleaned text -/

/-- A leading-segment check fails on a mismatching head. -/
theorem listPre_cons_ne (a b : Char) (as bs : List Char) (h : ¬(a = b)) :
    listPre (a :: as) (b :: bs) = false := by
  show (decide (a = b) && listPre as bs) = false
  rw [decide_eq_false h]
  rfl

/-- `dropWhile` keeps a head that fails the predicate. -/
theorem dropWhile_cons_false {p : Char → Bool} {x : Char} {xs : List Char}
    (h : p x = false) : (x :: xs).dropWhile p = x :: xs := by
  rw [List.dropWhile_cons, h]
  simp

/-- `dropWhile` drops a head that satisfies the predicate. -/
theorem dropWhile_cons_true {p : Char → Bool} {x : Char} {xs : List Char}
    (h : p x = true) : (x :: xs).dropWhile p = xs.dropWhile p := by
  rw [List.dropWhile_cons, h]
  simp

/-- Trimming from the right absorbs one trailing matching character. -/
theorem dropEndWhile_append_true (p : Char → Bool) (d : List Char) (c : Char)
    (h : p c = true) : dropEndWhile p (d ++ [c]) = dropEndWhile p d := by
  unfold dropEndWhile
  rw [List.reverse_append]
  show ((c :: d.reverse).dropWhile p).reverse = _
  rw [dropWhile_cons_true h]

/-- No occurrence of ```` ```json ```` can start inside a block and spill
into a following `"\n```"`: the spill position would have to hold a
newline where the pattern has a backtick or a letter. -/
theorem fenceJson_no_spill (s2 : List Char)
    (h : listPre fenceJson (s2 ++ toL "\n```") = true) :
    listPre fenceJson s2 = true := by
  by_cases hlen : fenceJson.length ≤ s2.length
  · rw [listPre_big _ _ _ hlen] at h
    exact h
  · exfalso
    have h7 : fenceJson.length = 7 := by decide
    have hlt : s2.length < 7 := by omega
    have hidx := listPre_getElem? _ _ h s2.length (by omega)
    have hT : (s2 ++ toL "\n```")[s2.length]? = some '\n' := by
      rw [List.getElem?_append_right le_rfl]
      rw [Nat.sub_self]
      rfl
    rw [hT] at hidx
    set n := s2.length with hn
    interval_cases n <;> exact absurd hidx.symm (by decide)

/-- No occurrence of ```` ``` ```` can start inside a block and spill into
a following `"\n```"`: the spill position would have to hold a newline
where the pattern has a backtick. -/
theorem fencePlain_no_spill (s2 : List Char)
    (h : listPre fencePlain (s2 ++ toL "\n```") = true) :
    listPre fencePlain s2 = true := by
  by_cases hlen : fencePlain.length ≤ s2.length
  · rw [listPre_big _ _ _ hlen] at h
    exact h
  · exfalso
    have h3 : fencePlain.length = 3 := by decide
    have hlt : s2.length < 3 := by omega
    have hidx := listPre_getElem? _ _ h s2.length (by omega)
    have hT : (s2 ++ toL "\n```")[s2.length]? = some '\n' := by
      rw [List.getElem?_append_right le_rfl]
      rw [Nat.sub_self]
      rfl
    rw [hT] at hidx
    set n := s2.length with hn
    interval_cases n <;> exact absurd hidx.symm (by decide)

/-- A fenced block is already stripped: it starts and ends in backticks. -/
theorem pyStrip_fenceWrap (s : List Char) : pyStrip (fenceWrap s) = fenceWrap s := by
  have hshape : fenceWrap s =
      '`' :: ('`' :: '`' :: 'j' :: 's' :: 'o' :: 'n' :: '\n' :: (s ++ toL "\n```")) := rfl
  have h1 : (fenceWrap s).dropWhile isPySpace = fenceWrap s := by
    rw [hshape]
    exact dropWhile_cons_false (by decide)
  have hrev : (fenceWrap s).reverse =
      '`' :: ('`' :: '`' :: '\n' :: (s.reverse ++ (toL "```json\n").reverse)) := by
    show (toL "```json\n" ++ (s ++ toL "\n```")).reverse = _
    rw [List.reverse_append, List.reverse_append]
    rfl
  have h2 : dropEndWhile isPySpace (fenceWrap s) = fenceWrap s := by
    unfold dropEndWhile
    rw [hrev, dropWhile_cons_false (by decide), ← hrev, List.reverse_reverse]
  show dropEndWhile isPySpace ((fenceWrap s).dropWhile isPySpace) = fenceWrap s
  rw [h1, h2]

/-- Cleaning a fenced block yields the cleaned inner block padded with the
two fence newlines, provided the inner block carries no surrounding
whitespace of its own (the `strip` of line 179 runs before fence removal,
so inner surrounding whitespace would survive only in the fenced form). -/
theorem cleanResponse_fenceWrap (s : List Char) (h : pyStrip s = s) :
    cleanResponse (fenceWrap s) = '\n' :: (cleanResponse s ++ ['\n']) := by
  have hfw : fenceWrap s = fenceJson ++ ('\n' :: (s ++ toL "\n```")) := rfl
  have hstep1 : removeAll fenceJson (fenceWrap s) =
      '\n' :: (removeAll fenceJson s ++ toL "\n```") := by
    rw [hfw]
    have hself : removeAll fenceJson (fenceJson ++ ('\n' :: (s ++ toL "\n```"))) =
        removeAll fenceJson ('\n' :: (s ++ toL "\n```")) :=
      removeAll_pat_self '`' (toL "``json") _
    have hne : listPre fenceJson ('\n' :: (s ++ toL "\n```")) = false := rfl
    rw [hself, removeAll_cons_ne _ _ _ hne,
      removeAll_append fenceJson (toL "\n```") fenceJson_no_spill s.length s le_rfl]
    have : removeAll fenceJson (toL "\n```") = toL "\n```" := by decide
    rw [this]
  have hstep2 : removeAll fencePlain ('\n' :: (removeAll fenceJson s ++ toL "\n```")) =
      '\n' :: (removeAll fencePlain (removeAll fenceJson s) ++ ['\n']) := by
    have hne : listPre fencePlain ('\n' :: (removeAll fenceJson s ++ toL "\n```")) = false := rfl
    rw [removeAll_cons_ne _ _ _ hne,
      removeAll_append fencePlain (toL "\n```") fencePlain_no_spill
        (removeAll fenceJson s).length _ le_rfl]
    have : removeAll fencePlain (toL "\n```") = ['\n'] := by decide
    rw [this]
  show removeAll fencePlain (removeAll fenceJson (pyStrip (fenceWrap s))) = _
  rw [pyStrip_fenceWrap, hstep1, hstep2]
  show _ = '\n' :: (removeAll fencePlain (removeAll fenceJson (pyStrip s)) ++ ['\n'])
  rw [h]

/-- Padding with the fence newlines does not change `json.loads`. -/
theorem jsonParse_pad (u : List Char) :
    jsonParse ('\n' :: (u ++ ['\n'])) = jsonParse u := by
  have htrim : jsonTrim ('\n' :: (u ++ ['\n'])) = jsonTrim u := by
    show dropEndWhile isJsonWs (('\n' :: (u ++ ['\n'])).dropWhile isJsonWs) = _
    rw [dropWhile_cons_true (by decide), List.dropWhile_append]
    by_cases he : (u.dropWhile isJsonWs).isEmpty
    · rw [if_pos he]
      have hu : u.dropWhile isJsonWs = [] := by simpa using he
      show dropEndWhile isJsonWs (['\n'].dropWhile isJsonWs) = _
      rw [dropWhile_cons_true (by decide)]
      unfold jsonTrim
      rw [hu]
      rfl
    · rw [if_neg he, dropEndWhile_append_true _ _ _ (by decide)]
      rfl
  unfold jsonParse
  rw [htrim]

/-- Padding with the fence newlines does not change the brace scan. -/
theorem braceExtract_pad (u : List Char) :
    braceExtract ('\n' :: (u ++ ['\n'])) = braceExtract u := by
  unfold braceExtract
  rw [dropWhile_cons_true (by decide), List.dropWhile_append]
  by_cases he : (u.dropWhile (fun c => ¬(c = '{'))).isEmpty
  · rw [if_pos he]
    have hu : u.dropWhile (fun c => ¬(c = '{')) = [] := by simpa using he
    rw [hu]
    rw [dropWhile_cons_true (by decide)]
    rfl
  · rw [if_neg he]
    have hu : ¬(u.dropWhile (fun c => ¬(c = '{')) = []) := by simpa using he
    rw [if_neg (by simp [hu]), if_neg hu]
    rw [List.reverse_append]
    show (if ((['\n'].reverse ++ _).dropWhile _) = ([] : List Char) then _ else _) = _
    rw [show (['\n'].reverse : List Char) = ['\n'] from rfl]
    rw [show (['\n'] ++ (u.dropWhile (fun c => ¬(c = '{'))).reverse : List Char) =
      '\n' :: (u.dropWhile (fun c => ¬(c = '{'))).reverse from rfl]
    rw [dropWhile_cons_true (by decide)]

/-! ## Lemmas: sorting the CSV columns -/

/-- `lexLe` is total. -/
theorem lexLe_total (a b : List Char) : lexLe a b = true ∨ lexLe b a = true := by
  induction a generalizing b with
  | nil => exact Or.inl rfl
  | cons x xs ih =>
    cases b with
    | nil => exact Or.inr rfl
    | cons y ys =>
      by_cases h1 : x < y
      · left
        show (if x < y then true else if y < x then false else lexLe xs ys) = true
        rw [if_pos h1]
      · by_cases h2 : y < x
        · right
          show (if y < x then true else if x < y then false else lexLe ys xs) = true
          rw [if_pos h2]
        · have hx : lexLe (x :: xs) (y :: ys) = lexLe xs ys := by
            show (if x < y then true else if y < x then false else lexLe xs ys) = _
            rw [if_neg h1, if_neg h2]
          have hy : lexLe (y :: ys) (x :: xs) = lexLe ys xs := by
            show (if y < x then true else if x < y then false else lexLe ys xs) = _
            rw [if_neg h2, if_neg h1]
          rw [hx, hy]
          exact ih ys

/-- `lexLe` is transitive. -/
theorem lexLe_trans (a b c : List Char) (h1 : lexLe a b = true)
    (h2 : lexLe b c = true) : lexLe a c = true := by
  induction a generalizing b c with
  | nil => rfl
  | cons x xs ih =>
    cases b with
    | nil => cases h1
    | cons y ys =>
      cases c with
      | nil => cases h2
      | cons z zs =>
        have hxy : x < y ∨ (¬x < y ∧ ¬y < x ∧ lexLe xs ys = true) := by
          by_cases hx : x < y
          · exact Or.inl hx
          · by_cases hy : y < x
            · exfalso
              have hfalse : lexLe (x :: xs) (y :: ys) = false := by
                show (if x < y then true else if y < x then false else lexLe xs ys) = false
                rw [if_neg hx, if_pos hy]
              rw [hfalse] at h1; cases h1
            · refine Or.inr ⟨hx, hy, ?_⟩
              have heq : lexLe (x :: xs) (y :: ys) = lexLe xs ys := by
                show (if x < y then true else if y < x then false else lexLe xs ys) = _
                rw [if_neg hx, if_neg hy]
              rw [heq] at h1; exact h1
        have hyz : y < z ∨ (¬y < z ∧ ¬z < y ∧ lexLe ys zs = true) := by
          by_cases hy : y < z
          · exact Or.inl hy
          · by_cases hz : z < y
            · exfalso
              have hfalse : lexLe (y :: ys) (z :: zs) = false := by
                show (if y < z then true else if z < y then false else lexLe ys zs) = false
                rw [if_neg hy, if_pos hz]
              rw [hfalse] at h2; cases h2
            · refine Or.inr ⟨hy, hz, ?_⟩
              have heq : lexLe (y :: ys) (z :: zs) = lexLe ys zs := by
                show (if y < z then true else if z < y then false else lexLe ys zs) = _
                rw [if_neg hy, if_neg hz]
              rw [heq] at h2; exact h2
        show (if x < z then true else if z < x then false else lexLe xs zs) = true
        rcases hxy with hx1 | ⟨hx1, hx2, hx3⟩
        · rcases hyz with hy1 | ⟨hy1, hy2, hy3⟩
          · rw [if_pos (lt_trans hx1 hy1)]
          · have hyz2 : y = z := le_antisymm (not_lt.mp hy2) (not_lt.mp hy1)
            rw [if_pos (hyz2 ▸ hx1)]
        · rcases hyz with hy1 | ⟨hy1, hy2, hy3⟩
          · have hxy2 : x = y := le_antisymm (not_lt.mp hx2) (not_lt.mp hx1)
            have hxz : x < z := by rw [hxy2]; exact hy1
            rw [if_pos hxz]
          · have hxy2 : x = y := le_antisymm (not_lt.mp hx2) (not_lt.mp hx1)
            have hyz2 : y = z := le_antisymm (not_lt.mp hy2) (not_lt.mp hy1)
            have hxz : ¬x < z := by rw [hxy2, hyz2]; exact lt_irrefl z
            have hzx : ¬z < x := by rw [hxy2, hyz2]; exact lt_irrefl z
            rw [if_neg hxz, if_neg hzx]
            exact ih ys zs hx3 hy3

/-- Membership after ordered insertion. -/
theorem mem_sInsert (a x : List Char) (l : List (List Char)) :
    a ∈ sInsert x l ↔ a = x ∨ a ∈ l := by
  induction l with
  | nil => simp [sInsert]
  | cons y ys ih =>
    show a ∈ (if lexLe x y then x :: y :: ys else y :: sInsert x ys) ↔ _
    by_cases h : lexLe x y
    · rw [if_pos h]
      simp
    · rw [if_neg h]
      simp only [List.mem_cons, ih]
      tauto

/-- Sorting preserves membership. -/
theorem mem_sortKeys (a : List Char) (l : List (List Char)) :
    a ∈ sortKeys l ↔ a ∈ l := by
  induction l with
  | nil => simp [sortKeys]
  | cons x xs ih =>
    show a ∈ sInsert x (sortKeys xs) ↔ _
    rw [mem_sInsert, ih]
    simp

/-- Ordered insertion preserves sortedness. -/
theorem pairwise_sInsert (x : List Char) (l : List (List Char))
    (h : l.Pairwise (fun a b => lexLe a b = true)) :
    (sInsert x l).Pairwise (fun a b => lexLe a b = true) := by
  induction l with
  | nil => simp [sInsert]
  | cons y ys ih =>
    rcases List.pairwise_cons.mp h with ⟨hy, hys⟩
    show (if lexLe x y then x :: y :: ys else y :: sInsert x ys).Pairwise _
    by_cases hle : lexLe x y
    · rw [if_pos hle]
      refine List.pairwise_cons.mpr ⟨?_, h⟩
      intro b hb
      rcases List.mem_cons.mp hb with h1 | h1
      · rw [h1]; exact hle
      · exact lexLe_trans x y b hle (hy b h1)
    · rw [if_neg hle]
      have hyx : lexLe y x = true := by
        rcases lexLe_total x y with h1 | h1
        · exact absurd h1 hle
        · exact h1
      refine List.pairwise_cons.mpr ⟨?_, ih hys⟩
      intro b hb
      rcases (mem_sInsert b x ys).mp hb with h1 | h1
      · rw [h1]; exact hyx
      · exact hy b h1

/-- The column sort is sorted. -/
theorem pairwise_sortKeys (l : List (List Char)) :
    (sortKeys l).Pairwise (fun a b => lexLe a b = true) := by
  induction l with
  | nil => simp [sortKeys]
  | cons x xs ih => exact pairwise_sInsert x (sortKeys xs) ih

/-- Ordered insertion of a fresh element preserves duplicate-freeness. -/
theorem nodup_sInsert (x : List Char) (l : List (List Char))
    (hx : x ∉ l) (h : l.Nodup) : (sInsert x l).Nodup := by
  induction l with
  | nil => simp [sInsert]
  | cons y ys ih =>
    rcases List.nodup_cons.mp h with ⟨hy, hys⟩
    have hxy : ¬(x = y) := fun he => hx (List.mem_cons.mpr (Or.inl he))
    have hxys : x ∉ ys := fun hm => hx (List.mem_cons.mpr (Or.inr hm))
    show (if lexLe x y then x :: y :: ys else y :: sInsert x ys).Nodup
    by_cases hle : lexLe x y
    · rw [if_pos hle]
      exact List.nodup_cons.mpr ⟨fun hm => hx hm, h⟩
    · rw [if_neg hle]
      refine List.nodup_cons.mpr ⟨?_, ih hxys hys⟩
      intro hm
      rcases (mem_sInsert y x ys).mp hm with h1 | h1
      · exact hxy h1.symm
      · exact hy h1

/-- Sorting preserves duplicate-freeness. -/
theorem nodup_sortKeys (l : List (List Char)) (h : l.Nodup) :
    (sortKeys l).Nodup := by
  induction l with
  | nil => simp [sortKeys]
  | cons x xs ih =>
    rcases List.nodup_cons.mp h with ⟨hx, hxs⟩
    exact nodup_sInsert x (sortKeys xs) (fun hm => hx ((mem_sortKeys x xs).mp hm)) (ih hxs)

/-! ## Lemmas: CSV flattening -/

/-- Every value in the item sequence of the flattener is a scalar: dict
values were recursed into, list values were turned into joined strings. -/
theorem flattenObjItems_scalar :
    ∀ (n : Nat) (m : JObj) (parent : List Char), sizeOf m ≤ n →
      ∀ kv ∈ flattenObjItems m parent, isScalar kv.2 = true := by
  intro n
  induction n with
  | zero =>
    intro m parent hm
    cases m with
    | nil => intro kv hkv; cases hkv
    | cons k v tl => simp [JObj.cons.sizeOf_spec] at hm
  | succ n1 ih =>
    intro m parent hm kv hkv
    cases m with
    | nil => cases hkv
    | cons k v tl =>
      have hsz : 1 + sizeOf k + sizeOf v + sizeOf tl ≤ n1 + 1 := by
        rw [← JObj.cons.sizeOf_spec]; exact hm
      have htl : sizeOf tl ≤ n1 := by omega
      cases v with
      | null =>
        rcases List.mem_append.mp hkv with h1 | h1
        · rcases List.mem_singleton.mp h1 with h2
          rw [h2]; rfl
        · exact ih tl parent htl kv h1
      | bool b =>
        rcases List.mem_append.mp hkv with h1 | h1
        · rcases List.mem_singleton.mp h1 with h2
          rw [h2]; rfl
        · exact ih tl parent htl kv h1
      | num l =>
        rcases List.mem_append.mp hkv with h1 | h1
        · rcases List.mem_singleton.mp h1 with h2
          rw [h2]; rfl
        · exact ih tl parent htl kv h1
      | str s =>
        rcases List.mem_append.mp hkv with h1 | h1
        · rcases List.mem_singleton.mp h1 with h2
          rw [h2]; rfl
        · exact ih tl parent htl kv h1
      | arr xs =>
        rcases List.mem_append.mp hkv with h1 | h1
        · rcases List.mem_singleton.mp h1 with h2
          rw [h2]; rfl
        · exact ih tl parent htl kv h1
      | obj m2 =>
        have hm2 : sizeOf m2 ≤ n1 := by
          have : sizeOf (JVal.obj m2) = 1 + sizeOf m2 := JVal.obj.sizeOf_spec m2
          omega
        rcases List.mem_append.mp hkv with h1 | h1
        · exact ih m2 _ hm2 kv (mem_of_mem_dedupItems _ kv h1)
        · exact ih tl parent htl kv h1

/-- On a dict of scalars with no parent key, the flattener reproduces the
items unchanged. -/
theorem flattenObjItems_scalar_id (e : PyDict)
    (h : ∀ kv ∈ e, isScalar kv.2 = true) :
    flattenObjItems (toJObj e) [] = e := by
  induction e with
  | nil => rfl
  | cons hd tl ih =>
    obtain ⟨k, v⟩ := hd
    have hv : isScalar v = true := h (k, v) (List.mem_cons.mpr (Or.inl rfl))
    have htl : ∀ kv ∈ tl, isScalar kv.2 = true :=
      fun kv hkv => h kv (List.mem_cons.mpr (Or.inr hkv))
    cases v with
    | null => show (k, JVal.null) :: flattenObjItems (toJObj tl) [] = _; rw [ih htl]
    | bool b => show (k, JVal.bool b) :: flattenObjItems (toJObj tl) [] = _; rw [ih htl]
    | num l => show (k, JVal.num l) :: flattenObjItems (toJObj tl) [] = _; rw [ih htl]
    | str s => show (k, JVal.str s) :: flattenObjItems (toJObj tl) [] = _; rw [ih htl]
    | arr xs => cases hv
    | obj m => cases hv

/-! ## Lemmas: shape of a successful `process_file` run -/

/-- A successful text-mode run is a parsed response updated with the
filename and the `"text"` processing mode; the page count plays no part. -/
theorem process_file_text_success (path : List Char) (sz : Nat)
    (up gf : Option (List Char)) (del : Bool) (pd : Option (Nat × List Char))
    (gt : Option (List Char)) (m : PyDict)
    (h : process_file path sz true up gf del pd gt = some m) :
    ∃ fields resp pct, pd = some pct ∧ gt = some resp ∧
      responseParse resp = some fields ∧
      m = dictUpdate fields
        [(toL "filename", JVal.str (basename path)),
         (toL "processing_mode", JVal.str (toL "text"))] := by
  unfold process_file at h
  rw [if_neg (by simp)] at h
  split at h
  · exact Option.noConfusion h
  · split at h
    · exact Option.noConfusion h
    · split at h
      · exact Option.noConfusion h
      · split at h
        · exact Option.noConfusion h
        · injection h with h2
          refine ⟨_, _, _, rfl, rfl, ?_, h2.symm⟩
          assumption

/-- A successful file-mode run passed the size check, uploaded, generated,
deleted, and is a parsed response updated with the filename and the
`"file"` processing mode. -/
theorem process_file_file_success (path : List Char) (sz : Nat)
    (up gf : Option (List Char)) (del : Bool) (pd : Option (Nat × List Char))
    (gt : Option (List Char)) (m : PyDict)
    (h : process_file path sz false up gf del pd gt = some m) :
    sz ≤ GEMINI_MAX_FILE_SIZE_BYTES ∧ del = true ∧
    ∃ fields uf resp, up = some uf ∧ gf = some resp ∧
      responseParse resp = some fields ∧
      m = dictUpdate fields
        [(toL "filename", JVal.str (basename path)),
         (toL "processing_mode", JVal.str (toL "file"))] := by
  unfold process_file at h
  rw [if_pos rfl] at h
  split at h
  · exact Option.noConfusion h
  · split at h
    · exact Option.noConfusion h
    · split at h
      · exact Option.noConfusion h
      · split at h
        · exact Option.noConfusion h
        · split at h
          · exact Option.noConfusion h
          · injection h with h2
            refine ⟨by omega, ?_, _, _, _, rfl, rfl, ?_, h2.symm⟩
            · cases del with
              | false => exact absurd rfl (by assumption)
              | true => rfl
            · assumption

/-- Looking up the two metadata keys after the metadata update. -/
theorem dictLookup_metadata (fields : PyDict) (fn pm : List Char) (v1 v2 : JVal)
    (hne : ¬(pm = fn)) :
    dictLookup fn (dictUpdate fields [(fn, v1), (pm, v2)]) = some v1 ∧
    dictLookup pm (dictUpdate fields [(fn, v1), (pm, v2)]) = some v2 := by
  have hu : dictUpdate fields [(fn, v1), (pm, v2)] =
      pyInsert (pyInsert fields fn v1) pm v2 := rfl
  constructor
  · rw [hu, dictLookup_pyInsert_ne _ _ _ _ (fun he => hne he.symm),
      dictLookup_pyInsert_self]
  · rw [hu, dictLookup_pyInsert_self]

/-! ## Claim theorems -/

/-- Claim C10: the CSV flattening function is idempotent — flattening the
flattened result yields the flattened result again; and on a mapping whose
values are neither mappings nor sequences, flattening is the identity. -/
theorem c10_flatten_idempotent :
    (∀ d : PyDict,
      flatten_json_to_csv (flatten_json_to_csv d []) [] = flatten_json_to_csv d []) ∧
    (∀ d : PyDict, (keysOf d).Nodup → (∀ kv ∈ d, isScalar kv.2 = true) →
      flatten_json_to_csv d [] = d) := by
  constructor
  · intro d
    have hscalar : ∀ kv ∈ flatten_json_to_csv d [], isScalar kv.2 = true := by
      intro kv hkv
      exact flattenObjItems_scalar (sizeOf (toJObj d)) _ _ le_rfl kv
        (mem_of_mem_dedupItems _ kv hkv)
    show dedupItems (flattenObjItems (toJObj (flatten_json_to_csv d [])) []) = _
    rw [flattenObjItems_scalar_id _ hscalar]
    exact dedupItems_idem _
  · intro d hn hs
    show dedupItems (flattenObjItems (toJObj d) []) = d
    rw [flattenObjItems_scalar_id d hs]
    exact dedupItems_of_nodup d hn

/-- Witness for Claim C10: the identity half applied to a concrete flat
mapping. -/
theorem c10_flatten_idempotent_witness :
    flatten_json_to_csv [(toL "a", JVal.num (toL "1")), (toL "b", JVal.null)] [] =
      [(toL "a", JVal.num (toL "1")), (toL "b", JVal.null)] :=
  c10_flatten_idempotent.2 _ (by decide) (by decide)

/-- Claim C3: in the per-document merge, metadata keys overwrite
same-named keys supplied by the model; in particular the final merged
result's `filename` equals the basename of the processed file, whatever
the model returned. -/
theorem c3_metadata_precedence :
    (∀ (fields meta : PyDict) (k : List Char),
      (keysOf meta).Nodup → k ∈ keysOf meta →
      dictLookup k (dictUpdate fields meta) = dictLookup k meta) ∧
    (∀ (path : List Char) (sz : Nat) (tm : Bool) (up gf : Option (List Char))
       (del : Bool) (pd : Option (Nat × List Char)) (gt : Option (List Char))
       (m : PyDict),
      process_file path sz tm up gf del pd gt = some m →
      dictLookup (toL "filename") m = some (JVal.str (basename path))) := by
  constructor
  · intro fields meta k hn h
    exact dictLookup_dictUpdate_mem meta fields k hn h
  · intro path sz tm up gf del pd gt m h
    cases tm with
    | true =>
      obtain ⟨fields, resp, pct, _, _, _, hm⟩ :=
        process_file_text_success path sz up gf del pd gt m h
      rw [hm]
      exact (dictLookup_metadata fields _ _ _ _ (by decide)).1
    | false =>
      obtain ⟨_, _, fields, uf, resp, _, _, _, hm⟩ :=
        process_file_file_success path sz up gf del pd gt m h
      rw [hm]
      exact (dictLookup_metadata fields _ _ _ _ (by decide)).1

/-- Witness for Claim C3: a model response that itself guesses a
`filename` is overridden by the actual basename. -/
theorem c3_metadata_precedence_witness :
    dictLookup (toL "filename")
      [(toL "filename", JVal.str (toL "real.pdf")),
       (toL "processing_mode", JVal.str (toL "text"))] =
      some (JVal.str (basename (toL "docs/real.pdf"))) :=
  c3_metadata_precedence.2 (toL "docs/real.pdf") 0 true none none true
    (some (2, toL "t")) (some (toL "\x7b\"filename\": \"guess.pdf\"\x7d"))
    [(toL "filename", JVal.str (toL "real.pdf")),
     (toL "processing_mode", JVal.str (toL "text"))] rfl

/-- Claim C4 (amended): for every raw response with no leading or trailing
whitespace, parsing the response wrapped in a ```` ```json ... ``` ````
fence yields the same result as parsing the unwrapped content.  (The
unrestricted claim fails: `strip` runs before fence removal, so trailing
Python-whitespace that is not JSON-whitespace survives only inside the
fence — see the counterexample.) -/
theorem c4_fence_transparent (s : List Char) (h : pyStrip s = s) :
    responseParse (fenceWrap s) = responseParse s := by
  unfold responseParse parseStage
  rw [cleanResponse_fenceWrap s h, jsonParse_pad, braceExtract_pad]

/-- Witness for Claim C4: a concrete stripped response parses identically
with and without the fence. -/
theorem c4_fence_transparent_witness :
    pyStrip (toL "\x7b\"a\": 1\x7d") = toL "\x7b\"a\": 1\x7d" ∧
    responseParse (fenceWrap (toL "\x7b\"a\": 1\x7d")) =
      responseParse (toL "\x7b\"a\": 1\x7d") :=
  ⟨rfl, c4_fence_transparent (toL "\x7b\"a\": 1\x7d") rfl⟩

/-- Counterexample for Claim C4 as stated: the raw response `"[]\x0b"`
(a vertical tab is Python whitespace but not JSON whitespace) parses to
the empty dict unwrapped, yet fails inside the fence, because `strip`
cannot reach the vertical tab there and `json.loads` then reports extra
data while the brace fallback finds no braces. -/
theorem c4_fence_counterexample :
    responseParse (fenceWrap (toL "[]\x0b")) = none ∧
    responseParse (toL "[]\x0b") = some [] ∧
    responseParse (fenceWrap (toL "[]\x0b")) ≠ responseParse (toL "[]\x0b") := by
  refine ⟨rfl, rfl, fun hcontra => ?_⟩
  have hbad : (none : Option PyDict) = some [] := by
    calc (none : Option PyDict) = responseParse (fenceWrap (toL "[]\x0b")) := rfl
      _ = responseParse (toL "[]\x0b") := hcontra
      _ = some [] := rfl
  exact Option.noConfusion hbad

/-- Claim C5: when the decoded value is a JSON sequence, the parser takes
its first element if the sequence is non-empty and substitutes the empty
mapping otherwise; in particular `[{"a":1}]` parses to `{"a":1}` and `[]`
parses to `{}`. -/
theorem c5_list_leniency :
    (∀ (raw : List Char) (l : JArr), parseStage raw = some (JVal.arr l) →
      responseParse raw =
        (match l with
         | JArr.nil => some []
         | JArr.cons x _ =>
           match x with
           | JVal.obj m => some (jObjToList m)
           | _ => none)) ∧
    responseParse (toL "[\x7b\"a\":1\x7d]") = some [(toL "a", JVal.num (toL "1"))] ∧
    responseParse (toL "[]") = some [] := by
  refine ⟨?_, rfl, rfl⟩
  intro raw l h
  unfold responseParse
  rw [h]
  cases l with
  | nil => rfl
  | cons x tl => cases x <;> rfl

/-- Witness for Claim C5: the general sequence rule applied to the
concrete response `"[]"`. -/
theorem c5_list_leniency_witness :
    responseParse (toL "[]") = some [] :=
  c5_list_leniency.1 (toL "[]") JArr.nil rfl

/-- Claim C6: a file-mode document larger than the fixed 50 MB threshold
fails and is skipped — the result is `None` whatever the upload, model or
deletion oracles would have answered (so nothing is uploaded and no model
call is made), and the run does not degrade to text mode for it. -/
theorem c6_oversize_skipped (path : List Char) (sz : Nat)
    (up gf : Option (List Char)) (del : Bool) (pd : Option (Nat × List Char))
    (gt : Option (List Char)) (h : sz > GEMINI_MAX_FILE_SIZE_BYTES) :
    process_file path sz false up gf del pd gt = none := by
  unfold process_file
  rw [if_pos rfl, if_pos h]

/-- Witness for Claim C6: one byte over the 50 MB limit is skipped. -/
theorem c6_oversize_skipped_witness :
    process_file (toL "big.pdf") 52428801 false (some (toL "u"))
      (some (toL "\x7b\x7d")) true none none = none :=
  c6_oversize_skipped (toL "big.pdf") 52428801 (some (toL "u"))
    (some (toL "\x7b\x7d")) true none none (by decide)

/-- Claim C2 (amended): a failure of the staged-file deletion step makes
the document fail — the deletion call sits inside the same try/except as
upload and generation, so its exception is caught and `process_file`
returns no result for the document.  (The claim as stated, that cleanup
failure never causes the document to be skipped, is refuted by the
counterexample.) -/
theorem c2_delete_failure_fatal (path : List Char) (sz : Nat)
    (uf resp : List Char) (pd : Option (Nat × List Char))
    (gt : Option (List Char)) (h : sz ≤ GEMINI_MAX_FILE_SIZE_BYTES) :
    process_file path sz false (some uf) (some resp) false pd gt = none := by
  unfold process_file
  rw [if_pos rfl, if_neg (by omega)]
  rfl

/-- Witness for Claim C2: a concrete in-limit document with a failing
deletion yields no result. -/
theorem c2_delete_failure_fatal_witness :
    process_file (toL "doc.pdf") 10 false (some (toL "files/abc"))
      (some (toL "\x7b\"a\":1\x7d")) false none none = none :=
  c2_delete_failure_fatal (toL "doc.pdf") 10 (toL "files/abc")
    (toL "\x7b\"a\":1\x7d") none none (by decide)

/-- Counterexample for Claim C2 as stated: with upload and generation
succeeding and only the deletion flag flipped, the document goes from a
produced result to a skip — cleanup failure is fatal to the document. -/
theorem c2_delete_failure_counterexample :
    process_file (toL "doc.pdf") 10 false (some (toL "files/abc"))
      (some (toL "\x7b\"a\":1\x7d")) false none none = none ∧
    process_file (toL "doc.pdf") 10 false (some (toL "files/abc"))
      (some (toL "\x7b\"a\":1\x7d")) true none none =
      some [(toL "a", JVal.num (toL "1")),
        (toL "filename", JVal.str (toL "doc.pdf")),
        (toL "processing_mode", JVal.str (toL "file"))] :=
  ⟨rfl, rfl⟩

/-- Claim C1 (amended): a successful text-mode result always carries
`filename` (the basename of the input path) and `processing_mode`
`"text"`, but not the page count: the result is independent of the page
count reported by the text extraction (`main.py` computes `page_count` and
drops it).  Only the ceeol prototype records `page_count` — and that
variant sets `filename` and `page_count` but no processing mode. -/
theorem c1_text_mode_metadata :
    (∀ (path : List Char) (sz : Nat) (up gf : Option (List Char)) (del : Bool)
       (pd : Option (Nat × List Char)) (gt : Option (List Char)) (m : PyDict),
      process_file path sz true up gf del pd gt = some m →
      dictLookup (toL "filename") m = some (JVal.str (basename path)) ∧
      dictLookup (toL "processing_mode") m = some (JVal.str (toL "text"))) ∧
    (∀ (path : List Char) (sz : Nat) (up gf : Option (List Char)) (del : Bool)
       (txt : List Char) (pc pc2 : Nat) (gt : Option (List Char)),
      process_file path sz true up gf del (some (pc, txt)) gt =
        process_file path sz true up gf del (some (pc2, txt)) gt) ∧
    (∀ (path : List Char) (pd : Option (Nat × List Char))
       (gen : Option (List Char)) (m : PyDict),
      ceeol_process_pdf path pd gen = some m →
      dictLookup (toL "filename") m = some (JVal.str (basename path)) ∧
      ∃ pct, pd = some pct ∧
        dictLookup (toL "page_count") m = some (JVal.num (Nat.repr pct.1).toList)) := by
  refine ⟨?_, ?_, ?_⟩
  · intro path sz up gf del pd gt m h
    obtain ⟨fields, resp, pct, _, _, _, hm⟩ :=
      process_file_text_success path sz up gf del pd gt m h
    rw [hm]
    exact dictLookup_metadata fields _ _ _ _ (by decide)
  · intro path sz up gf del txt pc pc2 gt
    rfl
  · intro path pd gen m h
    unfold ceeol_process_pdf at h
    split at h
    · exact Option.noConfusion h
    · split at h
      · exact Option.noConfusion h
      · split at h
        · exact Option.noConfusion h
        · split at h
          all_goals try exact Option.noConfusion h
          injection h with h2
          rw [← h2]
          have hmeta := dictLookup_metadata (jObjToList (by assumption)) (toL "filename")
            (toL "page_count") (JVal.str (basename path)) (JVal.num (Nat.repr (by assumption : Nat × List Char).1).toList) (by decide)
          exact ⟨hmeta.1, ⟨_, rfl, hmeta.2⟩⟩

/-- Witness for Claim C1: a concrete successful text-mode document. -/
theorem c1_text_mode_metadata_witness :
    dictLookup (toL "filename")
      [(toL "filename", JVal.str (toL "doc.pdf")),
       (toL "processing_mode", JVal.str (toL "text"))] =
      some (JVal.str (basename (toL "docs/doc.pdf"))) ∧
    dictLookup (toL "processing_mode")
      [(toL "filename", JVal.str (toL "doc.pdf")),
       (toL "processing_mode", JVal.str (toL "text"))] =
      some (JVal.str (toL "text")) :=
  c1_text_mode_metadata.1 (toL "docs/doc.pdf") 0 none none true
    (some (7, toL "Sample text")) (some (toL "\x7b\x7d"))
    [(toL "filename", JVal.str (toL "doc.pdf")),
     (toL "processing_mode", JVal.str (toL "text"))] rfl

/-- Counterexample for Claim C1 as stated: a successfully processed
text-mode document whose merged result holds exactly the two keys
`filename` and `processing_mode` — no page count under any key — and
whose result does not change when the extracted page count does. -/
theorem c1_text_mode_counterexample :
    process_file (toL "docs/doc.pdf") 0 true none none true
      (some (7, toL "Sample text")) (some (toL "\x7b\x7d")) =
      some [(toL "filename", JVal.str (toL "doc.pdf")),
        (toL "processing_mode", JVal.str (toL "text"))] ∧
    dictLookup (toL "page_count")
      [(toL "filename", JVal.str (toL "doc.pdf")),
       (toL "processing_mode", JVal.str (toL "text"))] = none ∧
    process_file (toL "docs/doc.pdf") 0 true none none true
      (some (7, toL "Sample text")) (some (toL "\x7b\x7d")) =
      process_file (toL "docs/doc.pdf") 0 true none none true
        (some (1234, toL "Sample text")) (some (toL "\x7b\x7d")) :=
  ⟨rfl, rfl, rfl⟩

/-- Right-cancellation of list append. -/
theorem append_cancel_r (a b t : List Char) (h : a ++ t = b ++ t) : a = b := by
  have hlen : a.length = b.length := by
    have hl := congrArg List.length h
    simp only [List.length_append] at hl
    omega
  exact (List.append_inj h hlen).1

/-- Claim C7: for a non-empty result set, the CSV header is exactly the
union of the flattened keys of all results, sorted lexicographically and
duplicate-free, and every row fills each column from its flattened result,
substituting the empty string for absent columns; on the two disjoint
results `{"x":1}` and `{"y":2}` the header contains both columns. -/
theorem c7_csv_columns :
    (∀ (data : List PyDict) (cols : List (List Char)) (rows : List (List JVal)),
      save_to_csv data = some (cols, rows) →
      ((∀ k, k ∈ cols ↔ ∃ d, d ∈ data ∧ k ∈ keysOf (flatten_json_to_csv d [])) ∧
       cols.Pairwise (fun a b => lexLe a b = true) ∧
       cols.Nodup ∧
       rows = data.map (fun d => cols.map (fun c =>
         (dictLookup c (flatten_json_to_csv d [])).getD (JVal.str []))))) ∧
    save_to_csv [[(toL "x", JVal.num (toL "1"))], [(toL "y", JVal.num (toL "2"))]] =
      some ([toL "x", toL "y"],
        [[JVal.num (toL "1"), JVal.str []], [JVal.str [], JVal.num (toL "2")]]) := by
  refine ⟨?_, rfl⟩
  intro data cols rows h
  unfold save_to_csv at h
  split at h
  · exact Option.noConfusion h
  · dsimp only at h
    split at h
    · exact Option.noConfusion h
    · injection h with h2
      rw [Prod.mk.injEq] at h2
      obtain ⟨hc, hr⟩ := h2
      refine ⟨?_, ?_, ?_, ?_⟩
      · intro k
        rw [← hc, mem_sortKeys, List.mem_dedup, List.mem_flatMap]
        constructor
        · rintro ⟨d1, hd1, hkd⟩
          obtain ⟨d, hd, rfl⟩ := List.mem_map.mp hd1
          exact ⟨d, hd, hkd⟩
        · rintro ⟨d, hd, hkd⟩
          exact ⟨flatten_json_to_csv d [], List.mem_map.mpr ⟨d, hd, rfl⟩, hkd⟩
      · rw [← hc]
        exact pairwise_sortKeys _
      · rw [← hc]
        exact nodup_sortKeys _ (List.nodup_dedup _)
      · rw [← hr, ← hc, List.map_map]
        rfl

/-- Witness for Claim C7: the general statement applied to the two
disjoint singleton results. -/
theorem c7_csv_columns_witness :
    (∀ k, k ∈ [toL "x", toL "y"] ↔
      ∃ d, d ∈ [[(toL "x", JVal.num (toL "1"))], [(toL "y", JVal.num (toL "2"))]] ∧
        k ∈ keysOf (flatten_json_to_csv d [])) ∧
    ([toL "x", toL "y"] : List (List Char)).Pairwise (fun a b => lexLe a b = true) ∧
    ([toL "x", toL "y"] : List (List Char)).Nodup ∧
    [[JVal.num (toL "1"), JVal.str []], [JVal.str [], JVal.num (toL "2")]] =
      [[(toL "x", JVal.num (toL "1"))], [(toL "y", JVal.num (toL "2"))]].map
        (fun d => [toL "x", toL "y"].map (fun c =>
          (dictLookup c (flatten_json_to_csv d [])).getD (JVal.str []))) :=
  c7_csv_columns.1 [[(toL "x", JVal.num (toL "1"))], [(toL "y", JVal.num (toL "2"))]]
    [toL "x", toL "y"]
    [[JVal.num (toL "1"), JVal.str []], [JVal.str [], JVal.num (toL "2")]] rfl

/-- Claim C8: a loaded schema whose `fields` entry is absent or the empty
list makes the run fail before any document is processed — the outcome is
`none` and is independent of the per-document oracle, so no extraction is
attempted. -/
theorem c8_empty_schema (aOk dOk : Bool) (sch : PyDict) (rec : Bool)
    (dir : List Char) (walk : List (List Char × List (List Char)))
    (listing : List (List Char)) (f g : List Char → Option PyDict)
    (h : dictLookup (toL "fields") sch = none ∨
         dictLookup (toL "fields") sch = some (JVal.arr JArr.nil)) :
    mainRun aOk dOk (some sch) rec dir walk listing f = none ∧
    mainRun aOk dOk (some sch) rec dir walk listing f =
      mainRun aOk dOk (some sch) rec dir walk listing g := by
  have hok : schemaFieldsOk sch = false := by
    unfold schemaFieldsOk
    rcases h with h1 | h1
    · rw [h1]
    · rw [h1]
      rfl
  have hnone : ∀ r : List Char → Option PyDict,
      mainRun aOk dOk (some sch) rec dir walk listing r = none := by
    intro r
    simp [mainRun, hok]
  exact ⟨hnone f, by rw [hnone f, hnone g]⟩

/-- Witness for Claim C8: a schema with `fields = []` yields no run
output. -/
theorem c8_empty_schema_witness :
    mainRun true true (some [(toL "fields", JVal.arr JArr.nil)]) false (toL ".")
      [] [toL "a.pdf"] sampleRunDoc = none :=
  (c8_empty_schema true true [(toL "fields", JVal.arr JArr.nil)] false (toL ".")
    [] [toL "a.pdf"] sampleRunDoc sampleRunDoc (Or.inr rfl)).1

/-- Claim C9: in non-recursive mode the per-document paths are the bare
names returned by listing the input directory — the collected paths do not
depend on the input directory at all and each is an element of the
listing; in recursive mode every path is the name joined with its
containing directory.  A bare name is resolved against the working
directory, so for any working directory other than the (normalized) input
directory the file opened is not the like-named file under the input
directory. -/
theorem c9_nonrecursive_bare_paths :
    (∀ (dir dir2 : List Char) (walk : List (List Char × List (List Char)))
       (listing : List (List Char)),
      collectPdfFiles false dir walk listing = collectPdfFiles false dir2 walk listing) ∧
    (∀ (dir : List Char) (walk : List (List Char × List (List Char)))
       (listing : List (List Char)) (p : List Char),
      p ∈ collectPdfFiles false dir walk listing → p ∈ listing) ∧
    (∀ (dir : List Char) (walk : List (List Char × List (List Char)))
       (listing : List (List Char)) (p : List Char),
      p ∈ collectPdfFiles true dir walk listing →
      ∃ rf, rf ∈ walk ∧ ∃ f, f ∈ rf.2 ∧ p = pathJoin rf.1 f) ∧
    (∀ (cwd dir f : List Char), ¬(cwd = []) → ¬(dir = []) → ¬(cwd = dir) →
      ¬(cwd.getLast? = some '/') → ¬(dir.getLast? = some '/') →
      ¬(f.head? = some '/') →
      resolveFrom cwd f ≠ pathJoin dir f) := by
  refine ⟨?_, ?_, ?_, ?_⟩
  · intro dir dir2 walk listing
    rfl
  · intro dir walk listing p hp
    exact (List.mem_filter.mp hp).1
  · intro dir walk listing p hp
    have hp2 : p ∈ walk.flatMap
        (fun rf => (rf.2.filter isPdfName).map (fun f => pathJoin rf.1 f)) := hp
    rw [List.mem_flatMap] at hp2
    obtain ⟨rf, hrf, hpm⟩ := hp2
    obtain ⟨f, hf, rfl⟩ := List.mem_map.mp hpm
    exact ⟨rf, hrf, f, (List.mem_filter.mp hf).1, rfl⟩
  · intro cwd dir f hc hd hne hcl hdl hfh
    unfold resolveFrom
    rw [if_neg hfh]
    unfold pathJoin
    rw [if_neg hfh, if_neg hc, if_neg hcl, if_neg hfh, if_neg hd, if_neg hdl]
    intro heq
    exact hne (append_cancel_r cwd dir ('/' :: f) heq)

/-- Witness for Claim C9: from working directory `/tmp`, a bare listing
name opens a file that is not the like-named file under `/data`. -/
theorem c9_nonrecursive_bare_paths_witness :
    resolveFrom (toL "/tmp") (toL "a.pdf") ≠ pathJoin (toL "/data") (toL "a.pdf") :=
  c9_nonrecursive_bare_paths.2.2.2 (toL "/tmp") (toL "/data") (toL "a.pdf")
    (by decide) (by decide) (by decide) (by decide) (by decide) (by decide)
